import Mathlib

/-!
Shallow embedding of the MstatX alignment-analysis engine
(src/msa.cpp, src/wentropy.cpp, src/jensen.cpp, src/trident.cpp).

Machine floating-point values (`float`/`double`) are modelled by exact
arithmetic: `ℚ` where no transcendental function occurs (sequence weights,
probability vectors, frequencies) and `ℝ` where `log`/`sqrt`/`pow` occur
(entropies, trident terms).  Fallible operations (`exit(0)` branches) are
modelled by `Option`.
-/

namespace MstatX

/-- Gap test used throughout msa.cpp: a cell is a gap iff it is a dash or a
space character. -/
def isGap (c : Char) : Bool := c == '-' || c == ' '

/-- The multiple sequence alignment state after the reading loop of the `Msa`
constructor: the retained residue strings (`mali_seq`), already upper-cased.
All derived quantities (alphabet, gap counts, type lists, frequencies,
entropies) are functions of this field, mirroring the analysis calls
`defineAlphabet/countGap/countFreq/countType/countEntropy` in the
constructor. -/
structure Msa where
  seqs : List (List Char)

namespace Msa

/-- `nseq`: number of sequences (rows). -/
def nseq (m : Msa) : Nat := m.seqs.length

/-- `ncol = mali_seq[0].size()`: number of columns. -/
def ncol (m : Msa) : Nat := (m.seqs.headD []).length

/-- `getSymbol(row, col) = mali_seq[row][col]`; out-of-range access (undefined
behaviour in the C++ source) is totalised with a default character. -/
def getSymbol (m : Msa) (row col : Nat) : Char := (m.seqs.getD row []).getD col '?'

/-- Well-formedness of the alignment assumed by the source (§3 invariants):
at least one sequence, and all residue strings of equal length `ncol`. -/
def wf (m : Msa) : Prop := 0 < m.seqs.length ∧ ∀ s ∈ m.seqs, s.length = m.ncol

/-- One step of the first-seen scan shared by `defineAlphabet` and
`countType`: `if (l.find(c) >= l.size()) l.push_back(c)`. -/
def scanAdd (l : List Char) (c : Char) : List Char := if c ∈ l then l else l ++ [c]

/-- Column `col` of the alignment, in row order (rows `0..nseq-1`). -/
def column (m : Msa) (col : Nat) : List Char :=
  (List.range m.nseq).map (fun row => m.getSymbol row col)

/-- All alignment cells in the traversal order of `defineAlphabet` and
`countFreq` (column-major: outer loop on columns, inner loop on rows). -/
def cells (m : Msa) : List Char := ((List.range m.ncol).map (fun col => m.column col)).flatten

/-- `defineAlphabet()`: scan every cell, appending each symbol not seen
before (msa.cpp lines 189-199). -/
def alphabet (m : Msa) : List Char := m.cells.foldl scanAdd []

/-- `countGap()` for one column: number of rows holding a gap symbol
(msa.cpp lines 120-131); `getGap(col)` returns this count. -/
def gapCount (m : Msa) (col : Nat) : Nat := ((m.column col).filter (fun c => isGap c)).length

/-- `countType()` for one column: the string `aa_types` of distinct symbols
of the column in first-seen row order (msa.cpp lines 170-183). -/
def typeList (m : Msa) (col : Nat) : List Char := (m.column col).foldl scanAdd []

/-- `getNtype(col) = nb_type[col] = aa_type_list[col].size()`. -/
def nbType (m : Msa) (col : Nat) : Nat := (m.typeList col).length

/-- `tmp_freq[pos]++`: increment slot `i` of an occurrence-count vector. -/
def bump (freq : List Nat) (i : Nat) : List Nat := freq.set i (freq.getD i 0 + 1)

/-- `total` of `countFreq()`: number of non-gap cells of the whole alignment
(msa.cpp lines 145-149). -/
def totalNonGap (m : Msa) : Nat := (m.cells.filter (fun c => !(isGap c))).length

/-- The `tmp_freq` vector of `countFreq()`: every cell (gaps included) bumps
the slot of its alphabet position `alphabet.find(c)` (msa.cpp lines 150-156). -/
def tmpFreq (m : Msa) : List Nat :=
  m.cells.foldl (fun acc c => bump acc (m.alphabet.findIdx (fun x => x == c)))
    (List.replicate m.alphabet.length 0)

/-- `countFreq()` (msa.cpp lines 138-164): fails (`exit(0)`, modelled as
`none`) when some cell's symbol is not found in the alphabet
(`pos >= alphabet.size()`); otherwise produces `aa_freq`, each count divided
by the non-gap total. -/
def countFreq (m : Msa) : Option (List ℚ) :=
  if m.cells.all (fun c => m.alphabet.findIdx (fun x => x == c) < m.alphabet.length) then
    some (m.tmpFreq.map (fun n : ℕ => (n : ℚ) / (m.totalNonGap : ℚ)))
  else none

/-- The stored `aa_freq` vector (the value `countFreq` computes on the
success path). -/
def aaFreq (m : Msa) : List ℚ := m.tmpFreq.map (fun n : ℕ => (n : ℚ) / (m.totalNonGap : ℚ))

/-- `getFreq(aa)` (msa.cpp lines 206-214): `exit(0)` (modelled `none`) when
`getAaPos(aa) == -1`, i.e. the symbol is absent from the alphabet; else
`aa_freq[pos]`. -/
def getFreq (m : Msa) (c : Char) : Option ℚ :=
  let pos := m.alphabet.findIdx (fun x => x == c)
  if pos < m.alphabet.length then some (m.aaFreq.getD pos 0) else none

/-- The integer `lfreq` occurrence vector of `countEntropy()` before the
division by `nseq`: `lfreq[getAaPos(mali_seq[row][col])] += 1.0` over the
rows of the column (msa.cpp lines 252-255). -/
def lfreqRaw (m : Msa) (col : Nat) : List Nat :=
  (m.column col).foldl (fun acc c => bump acc (m.alphabet.findIdx (fun x => x == c)))
    (List.replicate m.alphabet.length 0)

/-- `countEntropy()` for one column (msa.cpp lines 247-268).  Each frequency
`lfreq[i]/nseq` contributes `-f*log f` when `0 < f`, except that the
`f == 1.0` branch executes the no-op comparison `entropy[col] == 0.0`
(a comparison where the source comment suggests an assignment was meant), so
it leaves the accumulator unchanged.  The accumulated value is then divided
by `log(alphabet.size()-1)` in machine floating point, whose exceptional
divisors must be kept apart from ordinary real division: with exactly two
alphabet symbols the divisor is exactly `log(1) = 0.0` and the quotient is
NaN (`0.0/0.0`) or an infinity — no real value at all, modelled `none`;
with a single symbol the divisor is `log(0) = -infinity` and the finite
accumulator divided by it is (negative) zero; every larger alphabet gives a
positive finite divisor and ordinary real division.  (An empty alphabet
cannot arise from a nonempty alignment; there the fold is empty and the
quotient is zero under either reading of the wrapped size_t subtraction.) -/
noncomputable def colEntropy (m : Msa) (col : Nat) : Option ℝ :=
  let acc : ℝ := (List.range m.alphabet.length).foldl (fun acc i =>
      let f : ℝ := (((m.lfreqRaw col).getD i 0 : ℕ) : ℝ) / (m.nseq : ℝ)
      if 0 < f then (if f = 1 then acc else acc - f * Real.log f) else acc) 0
  if m.alphabet.length = 2 then none
  else if m.alphabet.length = 1 then some 0
  else some (acc / Real.log ((m.alphabet.length : ℝ) - 1))

end Msa

/-- The inner counting loop shared verbatim by the three `calcSeqWeight`
implementations: `n`, the number of rows whose symbol at column `x` equals
row `i`'s symbol there (row `i` included). -/
def nShared (m : Msa) (x i : Nat) : Nat :=
  ((List.range m.nseq).filter (fun seq => m.getSymbol i x == m.getSymbol seq x)).length

namespace WEntStat

/-- `WEntStat::calcSeqWeight` (wentropy.cpp lines 48-72): Henikoff-Henikoff
weight accumulated as `w += 1/(n*k)` over columns, then `w /= L`. -/
def calcSeqWeight (m : Msa) (i : Nat) : ℚ :=
  ((List.range m.ncol).foldl (fun w x =>
      w + 1 / ((nShared m x i : ℚ) * (m.nbType x : ℚ))) 0) / (m.ncol : ℚ)

/-- `lambda = 1.0 / log(MIN(alphabet.size(), nseq))` (wentropy.cpp line 112). -/
noncomputable def lambda (m : Msa) : ℝ :=
  1 / Real.log ((min m.alphabet.length m.nseq : ℕ) : ℝ)

/-- `proba[x][a]`: the weights of the rows whose symbol at column `x` equals
`alphabet[a]`, accumulated in row order (wentropy.cpp lines 116-121). -/
noncomputable def proba (m : Msa) (x a : Nat) : ℝ :=
  (List.range m.nseq).foldl (fun acc j =>
    if m.getSymbol j x == m.alphabet.getD a '?' then acc + ((calcSeqWeight m j : ℚ) : ℝ)
    else acc) 0

/-- `col_cons[x]` (wentropy.cpp lines 114-127): accumulate
`-= proba[x][a]*log(proba[x][a])` over the alphabet whenever
`proba[x][a] != 0.0`, then multiply by `lambda`. -/
noncomputable def colCons (m : Msa) (x : Nat) : ℝ :=
  ((List.range m.alphabet.length).foldl (fun acc a =>
      if proba m x a ≠ 0 then acc - proba m x a * Real.log (proba m x a) else acc) 0)
    * lambda m

/-- The per-column values written to the output file, in loop order
`col = 0..ncol-1` (wentropy.cpp lines 138-140):
`(1.0 - col_cons[col]) * (1 - getGap(col)/nseq)`. -/
noncomputable def output (m : Msa) : List ℝ :=
  (List.range m.ncol).map (fun col =>
    (1 - colCons m col) * (1 - (m.gapCount col : ℝ) / (m.nseq : ℝ)))

end WEntStat

/-- Statement of claim C1's probability, written from the spec's words:
`p_a` is the sum of the weights `w_j` over the rows `j` whose symbol at
column `x` is the symbol `c`. -/
noncomputable def specPa (m : Msa) (x : Nat) (c : Char) : ℝ :=
  ∑ j in (Finset.range m.nseq).filter (fun j => m.getSymbol j x = c),
    ((WEntStat.calcSeqWeight m j : ℚ) : ℝ)

/-- Statement of claim C1's entropy, written from the spec's words:
`H(x) = -lambda * Σ_{a, p_a ≠ 0} p_a log p_a` over the symbols of the
alphabet. -/
noncomputable def specH (m : Msa) (x : Nat) : ℝ :=
  -(WEntStat.lambda m) *
    ∑ c in m.alphabet.toFinset.filter (fun c => specPa m x c ≠ 0),
      specPa m x c * Real.log (specPa m x c)

/-- Statement of claim C2's weight, written from the spec's words:
`w_i = (1/L) * Σ_x 1/(k_x * n_{x,i})`. -/
def henikoffWeight (m : Msa) (i : Nat) : ℚ :=
  (1 / (m.ncol : ℚ)) *
    ∑ x in Finset.range m.ncol, 1 / ((m.nbType x : ℚ) * (nShared m x i : ℚ))

namespace JensenStat

/-- `JensenStat::calcSeqWeight` (jensen.cpp lines 48-72), identical in form
to the wentropy variant but computed in `double`. -/
def calcSeqWeight (m : Msa) (i : Nat) : ℚ :=
  ((List.range m.ncol).foldl (fun w x =>
      w + 1 / ((nShared m x i : ℚ) * (m.nbType x : ℚ))) 0) / (m.ncol : ℚ)

/-- `pow(10.0, -6.0)`: the pseudo-count constant. -/
def eps : ℚ := 1 / 1000000

/-- `proba[x][a]` before the pseudo-count pass (jensen.cpp lines 116-121). -/
def probaRaw (m : Msa) (x a : Nat) : ℚ :=
  (List.range m.nseq).foldl (fun acc j =>
    if m.getSymbol j x == m.alphabet.getD a '?' then acc + calcSeqWeight m j else acc) 0

/-- `nb_abs`: the number of alphabet slots whose accumulated probability is
zero at column `x` (jensen.cpp lines 122-125). -/
def nbAbs (m : Msa) (x : Nat) : Nat :=
  ((List.range m.alphabet.length).filter (fun a => probaRaw m x a == 0)).length

/-- The column probability vector after the pseudo-count adjustment
(jensen.cpp lines 114-134): zero entries are replaced by `1e-6`, then
`pseudo_counts = nb_abs*1e-6/(alphabet.size()-nb_abs)` is subtracted from
every entry greater than `1e-6`. -/
def probaCol (m : Msa) (x : Nat) : List ℚ :=
  let stage1 := (List.range m.alphabet.length).map
    (fun a => if probaRaw m x a = 0 then eps else probaRaw m x a)
  let pc := (nbAbs m x : ℚ) * eps / ((m.alphabet.length - nbAbs m x : ℕ) : ℚ)
  stage1.map (fun p => if eps < p then p - pc else p)

/-- Result of `JensenStat::calculateStatistic` on the program state: the
probability matrix it fills, whether the output file was opened, and the
scores written to it. -/
structure JensenRun where
  proba : List (List ℚ)
  openedOutput : Bool
  emitted : List ℚ

/-- `JensenStat::calculateStatistic` (jensen.cpp lines 74-155): computes the
probability matrix, runs an empty loop (lines 137-140), and executes
`return` at line 144 — before the `ofstream` at line 146 is ever
constructed and before any score line is written. -/
def calculateStatistic (m : Msa) : JensenRun :=
  { proba := (List.range m.ncol).map (fun x => probaCol m x)
    openedOutput := false
    emitted := [] }

end JensenStat

namespace TridStat

/-- `TridStat::calcSeqWeight` (trident.cpp lines 37-61), identical in form
to the wentropy variant. -/
def calcSeqWeight (m : Msa) (i : Nat) : ℚ :=
  ((List.range m.ncol).foldl (fun w x =>
      w + 1 / ((nShared m x i : ℚ) * (m.nbType x : ℚ))) 0) / (m.ncol : ℚ)

/-- `TridStat::normVect` (trident.cpp lines 190-197): Euclidean norm of a
vector, accumulated as a sum of squares then square-rooted. -/
noncomputable def normVect (v : List ℝ) : ℝ :=
  Real.sqrt (v.foldl (fun acc x => acc + x * x) 0)

end TridStat

/-- Modelled from the spec: the `ScoringMatrix` loaded from
`blosum62.mat` (§3 SubstitutionMatrix; its source file
`scoring_matrix.cpp` is not under src/): an ordered symbol alphabet, the
normalized pairwise score `normScore(a,b)`, and the global extrema of the
raw table.  Trident's `ntype == 0` branch under claim C3 does not depend on
any of these fields. -/
structure ScoringMatrix where
  alphabet : List Char
  normScore : Char → Char → ℝ
  maxS : ℝ
  minS : ℝ

namespace TridStat

/-- The per-column residue-similarity term `r(x)` of
`TridStat::calculateStatistic` (trident.cpp lines 124-160), as a function of
the column's type list read back from the (re-based) alignment.  The first
`'-'` entry, if any, is erased and `ntype` decremented; if `ntype` is then
zero the pushed value is `1.0`, else the mean normalized-score vector and
the averaged, `lambda`-normalized deviation are computed. -/
noncomputable def rOfTypeList (sm : ScoringMatrix) (tl0 : List Char) : ℝ :=
  let pos := tl0.findIdx (fun c => c == '-')
  let tl := if pos < tl0.length then tl0.eraseIdx pos else tl0
  if tl.length ≠ 0 then
    let alphSize := sm.alphabet.length
    let mean : Nat → ℝ := fun a =>
      (tl.foldl (fun acc c => acc + sm.normScore (sm.alphabet.getD a '?') c) 0) / (tl.length : ℝ)
    let lam := Real.sqrt ((alphSize : ℝ) * (sm.maxS - sm.minS) * (sm.maxS - sm.minS))
    ((tl.foldl (fun acc c =>
        acc + normVect ((List.range alphSize).map
          (fun a => mean a - sm.normScore (sm.alphabet.getD a '?') c))) 0)
      / (tl.length : ℝ)) / lam
  else 1

/-- One emitted line of `TridStat::calculateStatistic` (trident.cpp line
185): `pow(1-t, a) * pow(1-r, b) * pow(1-g, c)` with real exponents. -/
noncomputable def composite (t r g a b c : ℝ) : ℝ :=
  (1 - t) ^ a * (1 - r) ^ b * (1 - g) ^ c

end TridStat

namespace Parse

/-- The sequence-name extraction of the constructor (msa.cpp line 48):
`s.substr(1, s.find_first_of(' ') - 1)`, i.e. the characters after the
leading marker up to the first space (the whole remainder when the line has
no space, via the `npos` wrap-around of the length argument). -/
def extractName (s : List Char) : List Char := (s.drop 1).takeWhile (fun c => c ≠ ' ')

/-- Parser state: the `mali_name` and `mali_seq` vectors and the `tmp_seq`
accumulator. -/
structure St where
  names : List (List Char)
  seqs : List (List Char)
  tmp : List Char

/-- Processing of one input line by the reading loop (msa.cpp lines 42-53).
`s[0]` on an empty C++ string reads the terminating null character, so an
empty line never counts as a header. -/
def step (st : St) (s : List Char) : St :=
  if s.headD '\x00' = '>' then
    let seqs1 := if st.names.length ≠ 0 then st.seqs ++ [st.tmp] else st.seqs
    let names1 := if seqs1.length < 500 then st.names ++ [extractName s] else st.names
    { names := names1, seqs := seqs1, tmp := [] }
  else { st with tmp := st.tmp ++ s }

/-- The reading loop (msa.cpp lines 41-54): consume lines while
`mali_seq.size() < 500`. -/
def runLines (lines : List (List Char)) (st : St) : St :=
  match lines with
  | [] => st
  | s :: rest => if st.seqs.length < 500 then runLines rest (step st s) else st

/-- The whole reading phase of the `Msa` constructor: run the loop from the
empty state, then flush `tmp_seq` when the cap is not reached (msa.cpp lines
55-57).  Returns the retained `(mali_name, mali_seq)`. -/
def parseMsa (lines : List (List Char)) : List (List Char) × List (List Char) :=
  let st := runLines lines { names := [], seqs := [], tmp := [] }
  (st.names, if st.seqs.length < 500 then st.seqs ++ [st.tmp] else st.seqs)

/-- Invariant maintained by the reading loop on the `mali_name` /
`mali_seq` vector sizes. -/
def loopInv (st : St) : Prop :=
  st.seqs.length ≤ 500 ∧ st.names.length ≤ 500
    ∧ (st.names.length = 0 → st.seqs.length = 0)
    ∧ (0 < st.names.length →
        (st.names.length = st.seqs.length + 1 ∧ st.seqs.length ≤ 499)
          ∨ (st.names.length = 500 ∧ st.seqs.length = 500))

end Parse

/-! Concrete inputs used to instantiate the theorems below. -/

/-- A two-sequence, two-column alignment: rows `AA` and `AT`. -/
def msaW : Msa := ⟨[['A', 'A'], ['A', 'T']]⟩

/-- A three-sequence, one-column alignment whose single column holds the
three distinct residues `A`, `T`, `G`. -/
def msaATG : Msa := ⟨[['A'], ['T'], ['G']]⟩

/-- A three-sequence, two-column alignment with a constant column 0 and a
three-symbol alphabet. -/
def msaC6 : Msa := ⟨[['A', 'A'], ['A', 'T'], ['A', 'G']]⟩

/-- A trivial two-symbol scoring-matrix value. -/
noncomputable def smW : ScoringMatrix :=
  { alphabet := ['A', 'R'], normScore := fun _ _ => 0, maxS := 1, minS := 0 }

/-- An input text with one header line. -/
def linesHeader : List (List Char) := [['>', 'a'], ['A', 'C']]

/-- An input text with no header line at all. -/
def linesNoHeader : List (List Char) := [['A', 'C']]

/-! Generic helpers about folds, sums and first-seen scans. -/

section Helpers

variable {M : Type} [AddCommMonoid M] {ι : Type}

theorem foldl_add_eq (f : ι → M) :
    ∀ (l : List ι) (b : M), l.foldl (fun acc j => acc + f j) b = b + (l.map f).sum := by
  intro l
  induction l with
  | nil => intro b; simp
  | cons a l ih => intro b; simp [List.foldl_cons, ih, add_assoc]

theorem foldl_ite_add_eq (p : ι → Prop) [DecidablePred p] (f : ι → M) :
    ∀ (l : List ι) (b : M),
      l.foldl (fun acc j => if p j then acc + f j else acc) b
        = b + (l.map (fun j => if p j then f j else 0)).sum := by
  intro l
  induction l with
  | nil => intro b; simp
  | cons a l ih =>
      intro b
      by_cases h : p a <;> simp [List.foldl_cons, ih, h, add_assoc]

theorem sum_map_range (f : Nat → M) :
    ∀ n : Nat, ((List.range n).map f).sum = ∑ i in Finset.range n, f i := by
  intro n
  induction n with
  | zero => simp
  | succ n ih => simp [List.range_succ, Finset.sum_range_succ, ih]

theorem foldl_range_ite_add (p : Nat → Prop) [DecidablePred p] (f : Nat → M) (n : Nat) (b : M) :
    (List.range n).foldl (fun acc j => if p j then acc + f j else acc) b
      = b + ∑ j in Finset.range n, if p j then f j else 0 := by
  rw [foldl_ite_add_eq, sum_map_range]

theorem foldl_range_add (f : Nat → M) (n : Nat) (b : M) :
    (List.range n).foldl (fun acc j => acc + f j) b = b + ∑ j in Finset.range n, f j := by
  rw [foldl_add_eq, sum_map_range]

/-- Reindex a sum over the positions of a duplicate-free list as a sum over
its elements. -/
theorem sum_range_getD (g : Char → M) (d : Char) :
    ∀ (l : List Char), l.Nodup →
      (∑ i in Finset.range l.length, g (l.getD i d)) = ∑ c in l.toFinset, g c := by
  intro l
  induction l with
  | nil => intro _; simp
  | cons a l ih =>
      intro hnd
      rcases List.nodup_cons.mp hnd with ⟨ha, hl⟩
      rw [List.length_cons, Finset.sum_range_succ']
      have h1 : ∀ i, (a :: l).getD (i + 1) d = l.getD i d := by intro i; rfl
      have h0 : (a :: l).getD 0 d = a := rfl
      simp only [h1, h0]
      rw [ih hl, List.toFinset_cons, Finset.sum_insert (by simpa using ha), add_comm]

theorem length_filter_range (p : Nat → Bool) :
    ∀ n : Nat, ((List.range n).filter p).length
      = ((Finset.range n).filter (fun i => p i = true)).card := by
  intro n
  induction n with
  | zero => simp
  | succ n ih =>
      rw [List.range_succ, List.filter_append, List.length_append, ih, Finset.range_succ,
        Finset.filter_insert]
      by_cases h : p n = true <;>
        simp [h, Finset.card_insert_of_not_mem, Finset.not_mem_range_self]

end Helpers

/-! Properties of the first-seen scan `scanAdd` and of `findIdx` lookups. -/

theorem scanAdd_mem_of_mem {l : List Char} {c : Char} (x : Char) (hx : x ∈ l) :
    x ∈ Msa.scanAdd l c := by
  unfold Msa.scanAdd
  by_cases h : c ∈ l <;> simp [h, hx]

theorem mem_scanAdd_self (l : List Char) (c : Char) : c ∈ Msa.scanAdd l c := by
  unfold Msa.scanAdd
  by_cases h : c ∈ l <;> simp [h]

theorem mem_of_mem_scanAdd {l : List Char} {c x : Char} (hx : x ∈ Msa.scanAdd l c) :
    x ∈ l ∨ x = c := by
  unfold Msa.scanAdd at hx
  by_cases h : c ∈ l
  · simp [h] at hx; exact Or.inl hx
  · simp [h] at hx
    rcases hx with hx | hx
    · exact Or.inl hx
    · exact Or.inr hx

theorem scanAdd_nodup {l : List Char} (hl : l.Nodup) (c : Char) : (Msa.scanAdd l c).Nodup := by
  unfold Msa.scanAdd
  by_cases h : c ∈ l
  · simpa [h] using hl
  · simp only [h, if_false]
    exact List.Nodup.append hl (List.nodup_singleton c) (by simpa using h)

theorem foldl_scanAdd_mem_init :
    ∀ (cs : List Char) (init : List Char) (x : Char), x ∈ init → x ∈ cs.foldl Msa.scanAdd init := by
  intro cs
  induction cs with
  | nil => intro init x hx; simpa using hx
  | cons c cs ih => intro init x hx; exact ih _ _ (scanAdd_mem_of_mem x hx)

theorem foldl_scanAdd_mem :
    ∀ (cs : List Char) (init : List Char) (x : Char), x ∈ cs → x ∈ cs.foldl Msa.scanAdd init := by
  intro cs
  induction cs with
  | nil => intro _ x hx; simp at hx
  | cons c cs ih =>
      intro init x hx
      rcases List.mem_cons.mp hx with h | h
      · subst h; exact foldl_scanAdd_mem_init cs _ x (mem_scanAdd_self init x)
      · exact ih _ _ h

theorem mem_of_foldl_scanAdd :
    ∀ (cs : List Char) (init : List Char) (x : Char),
      x ∈ cs.foldl Msa.scanAdd init → x ∈ init ∨ x ∈ cs := by
  intro cs
  induction cs with
  | nil => intro init x hx; exact Or.inl hx
  | cons c cs ih =>
      intro init x hx
      rcases ih _ _ hx with h | h
      · rcases mem_of_mem_scanAdd h with h1 | h1
        · exact Or.inl h1
        · exact Or.inr (by simp [h1])
      · exact Or.inr (List.mem_cons_of_mem c h)

theorem foldl_scanAdd_nodup :
    ∀ (cs : List Char) (init : List Char), init.Nodup → (cs.foldl Msa.scanAdd init).Nodup := by
  intro cs
  induction cs with
  | nil => intro init h; simpa using h
  | cons c cs ih => intro init h; exact ih _ (scanAdd_nodup h c)

theorem foldl_scanAdd_length_le :
    ∀ (cs : List Char) (init : List Char),
      (cs.foldl Msa.scanAdd init).length ≤ init.length + cs.length := by
  intro cs
  induction cs with
  | nil => intro init; simp
  | cons c cs ih =>
      intro init
      have h1 : (Msa.scanAdd init c).length ≤ init.length + 1 := by
        unfold Msa.scanAdd
        by_cases h : c ∈ init <;> simp [h]
      calc ((c :: cs).foldl Msa.scanAdd init).length
          = (cs.foldl Msa.scanAdd (Msa.scanAdd init c)).length := rfl
        _ ≤ (Msa.scanAdd init c).length + cs.length := ih _
        _ ≤ init.length + 1 + cs.length := by omega
        _ = init.length + (c :: cs).length := by simp [List.length_cons]; omega

/-! Lookup by `alphabet.find`, modelled with `List.findIdx`. -/

theorem findIdx_beq_lt_of_mem {l : List Char} {c : Char} (hc : c ∈ l) :
    l.findIdx (fun x => x == c) < l.length := by
  induction l with
  | nil => simp at hc
  | cons a l ih =>
      rw [List.findIdx_cons]
      by_cases h : a == c
      · simp [h]
      · rcases List.mem_cons.mp hc with h1 | h1
        · exact absurd (by simp [h1]) h
        · simpa [h] using ih h1

theorem getD_findIdx_beq {l : List Char} {c : Char} (hc : c ∈ l) (d : Char) :
    l.getD (l.findIdx (fun x => x == c)) d = c := by
  induction l with
  | nil => simp at hc
  | cons a l ih =>
      by_cases h : a == c
      · simp [List.findIdx_cons, h, beq_iff_eq.mp h]
      · rcases List.mem_cons.mp hc with h1 | h1
        · exact absurd (by simp [h1]) h
        · have h2 : (a :: l).getD (l.findIdx (fun x => x == c) + 1) d
              = l.getD (l.findIdx (fun x => x == c)) d := rfl
          simpa [List.findIdx_cons, h, h2] using ih h1

theorem getD_mem_of_lt {l : List Char} {i : Nat} (hi : i < l.length) (d : Char) :
    l.getD i d ∈ l := by
  rw [List.getD_eq_getElem l d hi]
  exact List.getElem_mem hi

theorem findIdx_beq_getD_of_nodup {l : List Char} (hl : l.Nodup) (d : Char) :
    ∀ i, i < l.length → l.findIdx (fun x => x == l.getD i d) = i := by
  induction l with
  | nil => intro i hi; simp at hi
  | cons a l ih =>
      intro i hi
      rcases List.nodup_cons.mp hl with ⟨ha, hnd⟩
      match i with
      | 0 => simp [List.findIdx_cons]
      | Nat.succ j =>
          have hj : j < l.length := by simpa [List.length_cons] using hi
          have hgd : (a :: l).getD (j + 1) d = l.getD j d := rfl
          have hne : ¬((a == l.getD j d) = true) := by
            intro h
            exact ha (by rw [beq_iff_eq.mp h]; exact getD_mem_of_lt hj d)
          rw [hgd, List.findIdx_cons]
          rw [ih hnd j hj] at *
          simp [Bool.cond_eq_ite, hne]
          exact fun h => hne (beq_iff_eq.mpr (by simpa [List.getD] using h))

/-! Structural facts about the alignment model. -/

namespace Msa

theorem column_length (m : Msa) (col : Nat) : (m.column col).length = m.nseq := by
  simp [column]

theorem getSymbol_mem_column {m : Msa} {row : Nat} (hrow : row < m.nseq) (col : Nat) :
    m.getSymbol row col ∈ m.column col := by
  exact List.mem_map.mpr ⟨row, List.mem_range.mpr hrow, rfl⟩

theorem column_mem_cells {m : Msa} {col : Nat} (hcol : col < m.ncol) {c : Char}
    (hc : c ∈ m.column col) : c ∈ m.cells := by
  unfold cells
  exact List.mem_flatten.mpr ⟨m.column col, List.mem_map.mpr ⟨col, List.mem_range.mpr hcol, rfl⟩, hc⟩

theorem getSymbol_mem_cells {m : Msa} {row col : Nat} (hrow : row < m.nseq)
    (hcol : col < m.ncol) : m.getSymbol row col ∈ m.cells :=
  column_mem_cells hcol (getSymbol_mem_column hrow col)

theorem mem_alphabet_of_mem_cells {m : Msa} {c : Char} (hc : c ∈ m.cells) : c ∈ m.alphabet :=
  foldl_scanAdd_mem m.cells [] c hc

theorem mem_cells_of_mem_alphabet {m : Msa} {c : Char} (hc : c ∈ m.alphabet) : c ∈ m.cells := by
  rcases mem_of_foldl_scanAdd m.cells [] c hc with h | h
  · simp at h
  · exact h

theorem alphabet_nodup (m : Msa) : m.alphabet.Nodup :=
  foldl_scanAdd_nodup m.cells [] List.nodup_nil

theorem typeList_nodup (m : Msa) (col : Nat) : (m.typeList col).Nodup :=
  foldl_scanAdd_nodup (m.column col) [] List.nodup_nil

theorem mem_typeList_iff {m : Msa} {col : Nat} {c : Char} :
    c ∈ m.typeList col ↔ c ∈ m.column col := by
  constructor
  · intro h
    rcases mem_of_foldl_scanAdd (m.column col) [] c h with h1 | h1
    · simp at h1
    · exact h1
  · intro h; exact foldl_scanAdd_mem (m.column col) [] c h

theorem nbType_le_nseq (m : Msa) (col : Nat) : m.nbType col ≤ m.nseq := by
  have h := foldl_scanAdd_length_le (m.column col) []
  simpa [nbType, typeList, column_length] using h

theorem nbType_pos {m : Msa} (hn : 0 < m.nseq) (col : Nat) : 0 < m.nbType col := by
  have h0 : m.getSymbol 0 col ∈ m.column col := getSymbol_mem_column hn col
  have h1 : m.getSymbol 0 col ∈ m.typeList col := mem_typeList_iff.mpr h0
  exact List.length_pos.mpr (fun he => by simp [he] at h1)

theorem cells_length (m : Msa) : m.cells.length = m.ncol * m.nseq := by
  unfold cells
  rw [List.length_flatten]
  have h : ∀ l : List (List Char), (l.map List.length).sum = (List.map List.length l).sum :=
    fun l => rfl
  rw [List.map_map]
  have h2 : (List.length ∘ m.column) = fun _ => m.nseq := by
    funext col; simp [column_length]
  rw [h2]
  simp [List.map_const, List.sum_replicate, smul_eq_mul, mul_comm]

/-- Behaviour of the occurrence-count folds of `countFreq` and
`countEntropy`: slot `i` of the vector counts the cells equal to
`alphabet[i]`. -/
theorem bumpFold_getD (al : List Char) (hal : al.Nodup) {i : Nat} (hi : i < al.length) :
    ∀ (cs : List Char) (init : List Nat), init.length = al.length → (∀ c ∈ cs, c ∈ al) →
      ((cs.foldl (fun acc c => bump acc (al.findIdx (fun x => x == c))) init).getD i 0)
        = init.getD i 0 + cs.count (al.getD i '?') := by
  intro cs
  induction cs with
  | nil => intro init _ _; simp
  | cons c cs ih =>
      intro init hlen hmem
      have hc : c ∈ al := hmem c (List.mem_cons_self c cs)
      have hidx : al.findIdx (fun x => x == c) < al.length := findIdx_beq_lt_of_mem hc
      have hlen1 : (bump init (al.findIdx (fun x => x == c))).length = al.length := by
        simp [bump, hlen]
      have hstep := ih (bump init (al.findIdx (fun x => x == c))) hlen1
        (fun x hx => hmem x (List.mem_cons_of_mem c hx))
      rw [List.foldl_cons, hstep]
      by_cases heq : al.getD i '?' = c
      · have hfi : al.findIdx (fun x => x == c) = i := by
          rw [← heq]; exact findIdx_beq_getD_of_nodup hal '?' i hi
        have hbv : (bump init (al.findIdx (fun x => x == c))).getD i 0 = init.getD i 0 + 1 := by
          rw [hfi]
          simp [bump, List.getD]
          rw [List.getElem?_set_self (by omega)]
          cases h : init[i]? with
          | none =>
              exfalso
              have := List.getElem?_eq_none_iff.mp h
              omega
          | some v => simp
        rw [hbv, List.count_cons]
        have hb : (c == al.getD i '?') = true := beq_iff_eq.mpr heq.symm
        rw [hb]
        simp
        omega
      · have hfi : al.findIdx (fun x => x == c) ≠ i := by
          intro h
          exact heq (by rw [← h]; exact getD_findIdx_beq hc '?')
        have hbv : (bump init (al.findIdx (fun x => x == c))).getD i 0 = init.getD i 0 := by
          simp [bump, List.getD]
          rw [List.getElem?_set_ne (by omega)]
        rw [hbv, List.count_cons]
        have hb : (c == al.getD i '?') = false :=
          beq_eq_false_iff_ne.mpr (fun h => heq h.symm)
        rw [hb]
        simp only [if_neg Bool.false_ne_true]
        omega

theorem bump_foldl_length (f : Char → Nat) :
    ∀ (cs : List Char) (init : List Nat),
      (cs.foldl (fun acc c => bump acc (f c)) init).length = init.length := by
  intro cs
  induction cs with
  | nil => intro init; rfl
  | cons c cs ih => intro init; rw [List.foldl_cons, ih]; simp [bump]

theorem tmpFreq_length (m : Msa) : m.tmpFreq.length = m.alphabet.length := by
  unfold tmpFreq
  rw [bump_foldl_length]
  simp

theorem lfreqRaw_length (m : Msa) (col : Nat) : (m.lfreqRaw col).length = m.alphabet.length := by
  unfold lfreqRaw
  rw [bump_foldl_length]
  simp

theorem tmpFreq_getD (m : Msa) {i : Nat} (hi : i < m.alphabet.length) :
    m.tmpFreq.getD i 0 = m.cells.count (m.alphabet.getD i '?') := by
  unfold tmpFreq
  rw [bumpFold_getD m.alphabet m.alphabet_nodup hi m.cells (List.replicate m.alphabet.length 0)
    (by simp) (fun c hc => mem_alphabet_of_mem_cells hc)]
  simp

theorem lfreqRaw_getD (m : Msa) {col : Nat} (hcol : col < m.ncol) {i : Nat}
    (hi : i < m.alphabet.length) :
    (m.lfreqRaw col).getD i 0 = (m.column col).count (m.alphabet.getD i '?') := by
  unfold lfreqRaw
  rw [bumpFold_getD m.alphabet m.alphabet_nodup hi (m.column col)
    (List.replicate m.alphabet.length 0) (by simp)
    (fun c hc => mem_alphabet_of_mem_cells (column_mem_cells hcol hc))]
  simp

theorem sum_count_toFinset (l : List Char) : (∑ c in l.toFinset, l.count c) = l.length := by
  have h := Multiset.toFinset_sum_count_eq (l : Multiset Char)
  simp only [Multiset.coe_count, Multiset.coe_card] at h
  exact h

theorem sum_count_alphabet (m : Msa) :
    (∑ c in m.alphabet.toFinset, m.cells.count c) = m.cells.length := by
  rw [← sum_count_toFinset m.cells]
  apply (Finset.sum_subset _ _).symm
  · intro c hc
    exact List.mem_toFinset.mpr (mem_alphabet_of_mem_cells (List.mem_toFinset.mp hc))
  · intro c _ hc
    exact List.count_eq_zero.mpr (fun h => hc (List.mem_toFinset.mpr h))

end Msa

theorem sum_eq_sum_range_getD {M : Type} [AddCommMonoid M] :
    ∀ l : List M, l.sum = ∑ i in Finset.range l.length, l.getD i 0 := by
  intro l
  induction l with
  | nil => simp
  | cons a l ih =>
      rw [List.sum_cons, List.length_cons, Finset.sum_range_succ']
      have h1 : ∀ i, (a :: l).getD (i + 1) 0 = l.getD i 0 := fun i => rfl
      have h0 : (a :: l).getD 0 0 = a := rfl
      simp only [h1, h0]
      rw [← ih, add_comm]

theorem getD_map_of_lt {α β : Type} (f : α → β) (l : List α) {i : Nat} (hi : i < l.length)
    (d : α) (d2 : β) : (l.map f).getD i d2 = f (l.getD i d) := by
  rw [List.getD_eq_getElem l d hi, List.getD_eq_getElem (l.map f) d2 (by simpa using hi)]
  simp

/-- Claim C10: in a model where `defineAlphabet` ran over the same (already
upper-cased) sequence matrix that `countFreq` then scans, every alphabet
lookup inside `countFreq` succeeds, so the fatal `symbol is not in the
alphabet` branch is unreachable: `countFreq` always returns a value. -/
theorem claim_C10 (m : Msa) : (m.countFreq).isSome = true := by
  unfold Msa.countFreq
  have hall : m.cells.all
      (fun c => decide (m.alphabet.findIdx (fun x => x == c) < m.alphabet.length)) = true := by
    rw [List.all_eq_true]
    intro c hc
    exact decide_eq_true (findIdx_beq_lt_of_mem (Msa.mem_alphabet_of_mem_cells hc))
  rw [if_pos]
  · rfl
  · rw [List.all_eq_true] at hall ⊢
    intro c hc
    exact hall c hc

/-- Claim C8: for a symbol of the alphabet (gap symbols included),
`getFreq` returns the total number of cells holding that symbol (gaps are
counted in the numerator) divided by the number of non-gap cells, and the
frequencies over the whole alphabet sum to `(nseq*ncol)/totalNonGap`. -/
theorem claim_C8 (m : Msa) (c : Char) (hc : c ∈ m.alphabet) (htot : 0 < m.totalNonGap) :
    m.getFreq c = some ((m.cells.count c : ℚ) / (m.totalNonGap : ℚ))
      ∧ m.aaFreq.sum = ((m.nseq * m.ncol : ℕ) : ℚ) / (m.totalNonGap : ℚ) := by
  constructor
  · unfold Msa.getFreq
    have hpos : m.alphabet.findIdx (fun x => x == c) < m.alphabet.length :=
      findIdx_beq_lt_of_mem hc
    rw [if_pos hpos]
    unfold Msa.aaFreq
    rw [getD_map_of_lt _ m.tmpFreq (by rw [Msa.tmpFreq_length]; exact hpos) 0]
    rw [Msa.tmpFreq_getD m hpos, getD_findIdx_beq hc]
  · unfold Msa.aaFreq
    rw [sum_eq_sum_range_getD]
    have hlen : (m.tmpFreq.map (fun n : ℕ => (n : ℚ) / (m.totalNonGap : ℚ))).length
        = m.alphabet.length := by
      rw [List.length_map, Msa.tmpFreq_length]
    rw [hlen]
    have hterm : ∀ i ∈ Finset.range m.alphabet.length,
        (m.tmpFreq.map (fun n : ℕ => (n : ℚ) / (m.totalNonGap : ℚ))).getD i 0
          = ((m.cells.count (m.alphabet.getD i '?') : ℚ)) / (m.totalNonGap : ℚ) := by
      intro i hi
      have hi2 : i < m.tmpFreq.length := by
        rw [Msa.tmpFreq_length]; exact Finset.mem_range.mp hi
      rw [getD_map_of_lt _ m.tmpFreq hi2 0, Msa.tmpFreq_getD m (Finset.mem_range.mp hi)]
    rw [Finset.sum_congr rfl hterm, ← Finset.sum_div]
    have hsum : (∑ i in Finset.range m.alphabet.length,
        ((m.cells.count (m.alphabet.getD i '?') : ℚ)))
          = ((m.ncol * m.nseq : ℕ) : ℚ) := by
      rw [sum_range_getD (fun c => ((m.cells.count c : ℚ))) '?' m.alphabet m.alphabet_nodup]
      rw [← Nat.cast_sum]
      rw [Msa.sum_count_alphabet m, Msa.cells_length m]
    rw [hsum]
    congr 1
    rw [Nat.cast_mul, Nat.cast_mul, mul_comm]

/-- Instantiation of claim C8 at a concrete alignment and symbol. -/
theorem claim_C8_witness :
    ('A' ∈ msaW.alphabet ∧ 0 < msaW.totalNonGap)
      ∧ (msaW.getFreq 'A' = some ((msaW.cells.count 'A' : ℚ) / (msaW.totalNonGap : ℚ))
        ∧ msaW.aaFreq.sum = ((msaW.nseq * msaW.ncol : ℕ) : ℚ) / (msaW.totalNonGap : ℚ)) :=
  ⟨⟨by decide, by decide⟩, claim_C8 msaW 'A' (by decide) (by decide)⟩

theorem wentCalc_eq_henikoff (m : Msa) (i : Nat) :
    WEntStat.calcSeqWeight m i = henikoffWeight m i := by
  unfold WEntStat.calcSeqWeight henikoffWeight
  rw [foldl_range_add (fun x => 1 / ((nShared m x i : ℚ) * (m.nbType x : ℚ))), zero_add,
    div_eq_mul_inv, mul_comm, ← one_div]
  congr 1
  apply Finset.sum_congr rfl
  intro x _
  rw [mul_comm]

theorem jensenCalc_eq_wentCalc (m : Msa) (i : Nat) :
    JensenStat.calcSeqWeight m i = WEntStat.calcSeqWeight m i := rfl

theorem tridCalc_eq_wentCalc (m : Msa) (i : Nat) :
    TridStat.calcSeqWeight m i = WEntStat.calcSeqWeight m i := rfl

/-- Claim C2: the sequence weight computed by each of the three scoring
variants equals the Henikoff-Henikoff formula
`(1/L) * Σ_x 1/(k_x * n_{x,i})` with `k_x` the distinct-symbol count of
column `x` and `n_{x,i}` the number of rows sharing row `i`'s symbol at
column `x`. -/
theorem claim_C2 (m : Msa) (hwf : m.wf) (hcol : 1 ≤ m.ncol) {i : Nat} (hi : i < m.nseq) :
    WEntStat.calcSeqWeight m i = henikoffWeight m i
      ∧ JensenStat.calcSeqWeight m i = henikoffWeight m i
      ∧ TridStat.calcSeqWeight m i = henikoffWeight m i := by
  refine ⟨wentCalc_eq_henikoff m i, ?_, ?_⟩
  · rw [jensenCalc_eq_wentCalc]; exact wentCalc_eq_henikoff m i
  · rw [tridCalc_eq_wentCalc]; exact wentCalc_eq_henikoff m i

/-- Instantiation of claim C2 at a concrete alignment and row. -/
theorem claim_C2_witness :
    (msaW.wf ∧ 1 ≤ msaW.ncol ∧ 0 < msaW.nseq)
      ∧ (WEntStat.calcSeqWeight msaW 0 = henikoffWeight msaW 0
        ∧ JensenStat.calcSeqWeight msaW 0 = henikoffWeight msaW 0
        ∧ TridStat.calcSeqWeight msaW 0 = henikoffWeight msaW 0) :=
  ⟨⟨⟨by decide, by decide⟩, by decide, by decide⟩,
    claim_C2 msaW ⟨by decide, by decide⟩ (by decide) (by decide)⟩

/-- Claim C4: `JensenStat::calculateStatistic` returns before the score
emission code: the output file is never opened and no score value is
written, for every input model. -/
theorem claim_C4 (m : Msa) :
    (JensenStat.calculateStatistic m).openedOutput = false
      ∧ (JensenStat.calculateStatistic m).emitted = [] :=
  ⟨rfl, rfl⟩

/-- Claim C3: when a column's type list holds no symbol other than the gap
`'-'` (so `ntype` is zero once the gap entry is removed), Trident pushes
`r(x) = 1.0` exactly, and the emitted composite score
`(1-t)^a * (1-r)^b * (1-g)^c` of that column is `0` for every exponent
`b > 0`, whatever `t` and `g` are. -/
theorem claim_C3 (sm : ScoringMatrix) (tl0 : List Char) (hnd : tl0.Nodup)
    (hgap : ∀ x ∈ tl0, x = '-') (t g a b c : ℝ) (hb : 0 < b) :
    TridStat.rOfTypeList sm tl0 = 1
      ∧ TridStat.composite t (TridStat.rOfTypeList sm tl0) g a b c = 0 := by
  have hr : TridStat.rOfTypeList sm tl0 = 1 := by
    have hcases : tl0 = [] ∨ tl0 = ['-'] := by
      match tl0, hnd, hgap with
      | [], _, _ => exact Or.inl rfl
      | [x], _, hg => exact Or.inr (by rw [hg x (by simp)])
      | x :: y :: l, hn, hg =>
          exfalso
          have hx : x = '-' := hg x (by simp)
          have hy : y = '-' := hg y (by simp)
          rw [List.nodup_cons] at hn
          exact hn.1 (by rw [hx, ← hy]; simp)
    rcases hcases with h | h
    · rw [h]
      simp [TridStat.rOfTypeList]
    · rw [h]
      simp [TridStat.rOfTypeList, List.findIdx_cons]
  refine ⟨hr, ?_⟩
  rw [TridStat.composite, hr]
  rw [sub_self, Real.zero_rpow (ne_of_gt hb)]
  rw [mul_zero, zero_mul]

/-- Instantiation of claim C3 at a concrete matrix, the type list `"-"`,
and exponents `a = b = c = 1`. -/
theorem claim_C3_witness :
    ((['-'] : List Char).Nodup ∧ (∀ x ∈ (['-'] : List Char), x = '-') ∧ (0 : ℝ) < 1)
      ∧ (TridStat.rOfTypeList smW ['-'] = 1
        ∧ TridStat.composite 0 (TridStat.rOfTypeList smW ['-']) 0 1 1 1 = 0) :=
  ⟨⟨by decide, by decide, by norm_num⟩,
    claim_C3 smW ['-'] (by decide) (by decide) 0 0 1 1 1 (by norm_num)⟩

theorem step_of_header (st : Parse.St) {s : List Char} (hh : s.headD '\x00' = '>') :
    Parse.step st s =
      { names := if (if st.names.length ≠ 0 then st.seqs ++ [st.tmp] else st.seqs).length < 500
            then st.names ++ [Parse.extractName s] else st.names,
        seqs := if st.names.length ≠ 0 then st.seqs ++ [st.tmp] else st.seqs,
        tmp := [] } := by
  simp only [Parse.step]
  rw [if_pos hh]

theorem step_of_not_header (st : Parse.St) {s : List Char} (hh : ¬(s.headD '\x00' = '>')) :
    Parse.step st s = { st with tmp := st.tmp ++ s } := by
  simp only [Parse.step]
  rw [if_neg hh]

theorem step_loopInv {st : Parse.St} (hinv : Parse.loopInv st) (hg : st.seqs.length < 500)
    (s : List Char) : Parse.loopInv (Parse.step st s) := by
  obtain ⟨h1, h2, h3, h4⟩ := hinv
  by_cases hh : s.headD '\x00' = '>'
  · rw [step_of_header st hh]
    by_cases hn : st.names.length ≠ 0
    · rw [if_pos hn]
      have hq : st.names.length = st.seqs.length + 1 ∧ st.seqs.length ≤ 499 := by
        rcases h4 (Nat.pos_of_ne_zero hn) with h | h
        · exact h
        · omega
      have hlen : (st.seqs ++ [st.tmp]).length = st.seqs.length + 1 := by simp
      by_cases hcap : (st.seqs ++ [st.tmp]).length < 500
      · rw [if_pos hcap]
        refine ⟨by simp only [List.length_append, List.length_cons, List.length_nil]; omega, by simp only [List.length_append, List.length_cons, List.length_nil]; omega, by simp only [List.length_append, List.length_cons, List.length_nil]; omega, ?_⟩
        intro _
        left
        refine ⟨by simp only [List.length_append, List.length_cons, List.length_nil]; omega, by simp only [List.length_append, List.length_cons, List.length_nil]; omega⟩
      · rw [if_neg hcap]
        refine ⟨by simp only [List.length_append, List.length_cons, List.length_nil]; omega, by simp only [List.length_append, List.length_cons, List.length_nil]; omega, by simp only [List.length_append, List.length_cons, List.length_nil]; omega, ?_⟩
        intro _
        right
        refine ⟨by simp only [List.length_append, List.length_cons, List.length_nil]; omega, by simp only [List.length_append, List.length_cons, List.length_nil]; omega⟩
    · rw [if_neg hn]
      have hq : st.seqs.length = 0 := h3 (by omega)
      rw [if_pos (by omega)]
      refine ⟨by simp only [List.length_append, List.length_cons, List.length_nil]; omega, by simp only [List.length_append, List.length_cons, List.length_nil]; omega, by simp only [List.length_append, List.length_cons, List.length_nil]; omega, ?_⟩
      intro _
      left
      refine ⟨by simp only [List.length_append, List.length_cons, List.length_nil]; omega, by simp only [List.length_append, List.length_cons, List.length_nil]; omega⟩
  · rw [step_of_not_header st hh]
    exact ⟨h1, h2, h3, h4⟩

theorem step_names_pos {st : Parse.St} (hinv : Parse.loopInv st) (hg : st.seqs.length < 500)
    {s : List Char} (hh : s.headD '\x00' = '>') : 0 < (Parse.step st s).names.length := by
  obtain ⟨h1, h2, h3, h4⟩ := hinv
  rw [step_of_header st hh]
  by_cases hn : st.names.length ≠ 0
  · rw [if_pos hn]
    by_cases hcap : (st.seqs ++ [st.tmp]).length < 500
    · rw [if_pos hcap]; simp only [List.length_append, List.length_cons, List.length_nil]; omega
    · rw [if_neg hcap]; simp only [List.length_append, List.length_cons, List.length_nil]; omega
  · rw [if_neg hn]
    have hq : st.seqs.length = 0 := h3 (by omega)
    rw [if_pos (by omega)]
    simp only [List.length_append, List.length_cons, List.length_nil]
    omega

theorem step_names_of_not_header {st : Parse.St} {s : List Char}
    (hh : ¬(s.headD '\x00' = '>')) : (Parse.step st s).names = st.names := by
  rw [step_of_not_header st hh]

theorem runLines_inv :
    ∀ (lines : List (List Char)) (st : Parse.St), Parse.loopInv st →
      Parse.loopInv (Parse.runLines lines st)
        ∧ ((Parse.runLines lines st).names.length = 0 →
            st.names.length = 0 ∧ ∀ l ∈ lines, ¬(l.headD '\x00' = '>')) := by
  intro lines
  induction lines with
  | nil => intro st h; exact ⟨h, fun h0 => ⟨h0, by simp⟩⟩
  | cons s rest ih =>
      intro st h
      by_cases hg : st.seqs.length < 500
      · have hstep : Parse.loopInv (Parse.step st s) := step_loopInv h hg s
        have hrun : Parse.runLines (s :: rest) st = Parse.runLines rest (Parse.step st s) := by
          simp [Parse.runLines, hg]
        rcases ih (Parse.step st s) hstep with ⟨hinv2, hback⟩
        rw [hrun]
        refine ⟨hinv2, ?_⟩
        intro h0
        rcases hback h0 with ⟨hmid, hrest⟩
        by_cases hh : s.headD '\x00' = '>'
        · exact absurd hmid (by have := step_names_pos h hg hh; omega)
        · refine ⟨by rw [step_names_of_not_header hh] at hmid; exact hmid, ?_⟩
          intro l hl
          rcases List.mem_cons.mp hl with h1 | h1
          · rw [h1]; exact hh
          · exact hrest l h1
      · have hrun : Parse.runLines (s :: rest) st = st := by
          simp [Parse.runLines, hg]
        rw [hrun]
        refine ⟨h, ?_⟩
        intro h0
        obtain ⟨_, _, h3, _⟩ := h
        exact absurd (h3 h0) (by omega)

/-- Claim C9 counterexample: on an input text with no header line, the
constructor's reading phase retains one sequence string but zero sequence
names, so the retained counts differ. -/
theorem claim_C9_counterexample :
    ¬((Parse.parseMsa linesNoHeader).1.length = (Parse.parseMsa linesNoHeader).2.length) := by
  decide

/-- Claim C9 (amended): for every readable input text that contains at
least one header line (a line starting with the record marker), the number
of retained sequence names equals the number of retained sequence strings
after parsing, and both counts are at most 500.  (On an input with no
header line the final `mali_seq.push_back(tmp_seq)` still runs, giving one
sequence but zero names.) -/
theorem claim_C9_amended (lines : List (List Char))
    (hh : ∃ l ∈ lines, l.headD '\x00' = '>') :
    (Parse.parseMsa lines).1.length = (Parse.parseMsa lines).2.length
      ∧ (Parse.parseMsa lines).1.length ≤ 500
      ∧ (Parse.parseMsa lines).2.length ≤ 500 := by
  have hinv0 : Parse.loopInv { names := [], seqs := [], tmp := [] } := by
    refine ⟨by simp, by simp, by simp, by simp⟩
  rcases runLines_inv lines _ hinv0 with ⟨hinv, hback⟩
  set st := Parse.runLines lines { names := [], seqs := [], tmp := [] } with hst
  obtain ⟨h1, h2, h3, h4⟩ := hinv
  have hpos : 0 < st.names.length := by
    rcases Nat.eq_zero_or_pos st.names.length with h0 | h0
    · rcases hback h0 with ⟨_, hnone⟩
      rcases hh with ⟨l, hl, hl2⟩
      exact absurd hl2 (hnone l hl)
    · exact h0
  have hpm : Parse.parseMsa lines
      = (st.names, if st.seqs.length < 500 then st.seqs ++ [st.tmp] else st.seqs) := by
    simp only [Parse.parseMsa]
  rw [hpm]
  rcases h4 hpos with ⟨ha, hb⟩ | ⟨ha, hb⟩
  · rw [if_pos (by omega)]
    refine ⟨by simp only [List.length_append, List.length_cons, List.length_nil]; omega, by simp only [List.length_append, List.length_cons, List.length_nil]; omega, by simp only [List.length_append, List.length_cons, List.length_nil]; omega⟩
  · rw [if_neg (by omega)]
    exact ⟨by simp only [List.length_append, List.length_cons, List.length_nil]; omega, by simp only [List.length_append, List.length_cons, List.length_nil]; omega, by simp only [List.length_append, List.length_cons, List.length_nil]; omega⟩

/-- Instantiation of amended claim C9 at a concrete two-line input. -/
theorem claim_C9_witness :
    (∃ l ∈ linesHeader, l.headD '\x00' = '>')
      ∧ ((Parse.parseMsa linesHeader).1.length = (Parse.parseMsa linesHeader).2.length
        ∧ (Parse.parseMsa linesHeader).1.length ≤ 500
        ∧ (Parse.parseMsa linesHeader).2.length ≤ 500) :=
  ⟨by decide, claim_C9_amended linesHeader (by decide)⟩

theorem foldl_fixed {α β : Type} (step : β → α → β) :
    ∀ (l : List α) (b : β), (∀ a ∈ l, ∀ x, step x a = x) → l.foldl step b = b := by
  intro l
  induction l with
  | nil => intro b _; rfl
  | cons a l ih =>
      intro b h
      rw [List.foldl_cons, h a (List.mem_cons_self a l) b]
      exact ih b (fun x hx y => h x (List.mem_cons_of_mem a hx) y)

theorem column_replicate {m : Msa} {x : Nat} {c : Char}
    (hall : ∀ i < m.nseq, m.getSymbol i x = c) :
    m.column x = List.replicate m.nseq c := by
  have hlen : (m.column x).length = m.nseq := m.column_length x
  rw [← hlen]
  apply List.eq_replicate_length.mpr
  intro b hb
  rcases List.mem_map.mp hb with ⟨row, hrow, hbeq⟩
  rw [← hbeq]
  exact hall row (List.mem_range.mp hrow)

/-- Claim C6 counterexample: in the two-sequence alignment with rows `AA`
and `AT` the alphabet is exactly `AT`, so the constant non-gap column 0 is
normalized by the divisor `log(2-1) = 0.0`: the program computes
`0.0/0.0` (NaN) and produces no real value at all — in particular not `0`. -/
theorem claim_C6_counterexample : msaW.colEntropy 0 ≠ some 0 := by
  have hK : msaW.alphabet.length = 2 := by decide
  simp only [Msa.colEntropy]
  rw [if_pos hK]
  exact fun h => Option.noConfusion h

/-- Claim C6 (amended): a column holding exactly one distinct non-gap
symbol and no gap symbol (every row carries the same non-gap residue `c`)
has computed entropy exactly `0` whenever the model's alphabet does not
hold exactly two symbols: the only nonzero frequency is `1.0`, whose branch
adds nothing, so the accumulator stays `0`, and the normalizer is either
positive or `-infinity`, either way giving `0`.  With a two-symbol alphabet
the program instead divides `0.0` by `log(1) = 0.0` and produces NaN. -/
theorem claim_C6_amended (m : Msa) (hwf : m.wf) {x : Nat} (hx : x < m.ncol) (c : Char)
    (hgap : isGap c = false) (hall : ∀ i < m.nseq, m.getSymbol i x = c)
    (hK : m.alphabet.length ≠ 2) :
    m.colEntropy x = some 0 := by
  have hn : 0 < m.nseq := hwf.1
  have hcol : m.column x = List.replicate m.nseq c := column_replicate hall
  simp only [Msa.colEntropy]
  rw [if_neg hK]
  by_cases h1 : m.alphabet.length = 1
  · rw [if_pos h1]
  · rw [if_neg h1]
    rw [foldl_fixed _ _ _ ?_, zero_div]
    intro i hi acc
    have hi2 : i < m.alphabet.length := List.mem_range.mp hi
    have hcount : (m.lfreqRaw x).getD i 0 = (m.column x).count (m.alphabet.getD i '?') :=
      m.lfreqRaw_getD hx hi2
    by_cases heq : m.alphabet.getD i '?' = c
    · have hcv : (m.column x).count (m.alphabet.getD i '?') = m.nseq := by
        rw [hcol, heq, List.count_replicate]
        rw [if_pos (beq_iff_eq.mpr rfl)]
      have hf : (((m.lfreqRaw x).getD i 0 : ℕ) : ℝ) / (m.nseq : ℝ) = 1 := by
        rw [hcount, hcv]
        exact div_self (by positivity)
      simp only [hf]
      norm_num
    · have hcv : (m.column x).count (m.alphabet.getD i '?') = 0 := by
        rw [hcol, List.count_replicate]
        rw [if_neg]
        intro h
        exact heq (beq_iff_eq.mp h).symm
      have hf : (((m.lfreqRaw x).getD i 0 : ℕ) : ℝ) / (m.nseq : ℝ) = 0 := by
        rw [hcount, hcv]
        simp
      simp only [hf]
      norm_num

/-- Instantiation of amended claim C6 at a concrete alignment whose column
0 is constant and whose alphabet has three symbols. -/
theorem claim_C6_witness :
    (msaC6.wf ∧ 0 < msaC6.ncol ∧ isGap 'A' = false
        ∧ (∀ i < msaC6.nseq, msaC6.getSymbol i 0 = 'A') ∧ msaC6.alphabet.length ≠ 2)
      ∧ msaC6.colEntropy 0 = some 0 :=
  ⟨⟨⟨by decide, by decide⟩, by decide, by decide, by decide, by decide⟩,
    claim_C6_amended msaC6 ⟨by decide, by decide⟩ (by decide) 'A' (by decide) (by decide)
      (by decide)⟩

theorem foldl_mono_step {α : Type} (step : ℝ → α → ℝ) :
    ∀ (l : List α) (b : ℝ), (∀ a ∈ l, ∀ x : ℝ, x ≤ step x a) → b ≤ l.foldl step b := by
  intro l
  induction l with
  | nil => intro b _; exact le_refl b
  | cons a l ih =>
      intro b h
      calc b ≤ step b a := h a (List.mem_cons_self a l) b
        _ ≤ l.foldl step (step b a) := ih _ (fun y hy z => h y (List.mem_cons_of_mem a hy) z)
        _ = (a :: l).foldl step b := rfl

theorem foldl_congr_fun {α β : Type} (s1 s2 : β → α → β) :
    ∀ (l : List α) (b : β), (∀ a ∈ l, ∀ x, s1 x a = s2 x a) → l.foldl s1 b = l.foldl s2 b := by
  intro l
  induction l with
  | nil => intro b _; rfl
  | cons a l ih =>
      intro b h
      rw [List.foldl_cons, List.foldl_cons, h a (List.mem_cons_self a l) b]
      exact ih _ (fun y hy z => h y (List.mem_cons_of_mem a hy) z)

theorem column_count_le {m : Msa} (x : Nat) (c : Char) :
    (m.column x).count c ≤ m.nseq := by
  calc (m.column x).count c ≤ (m.column x).length := List.count_le_length c (m.column x)
    _ = m.nseq := m.column_length x

/-- Claim C7 counterexample: the one-column alignment with rows `A`, `T`,
`G` has full alphabet `ATG` used uniformly in column 0, yet its computed
entropy is `log 3 / log 2 > 1` — the normalizer `log(|alphabet|-1)` does
not match a gapless column, so the value is neither `1.0` nor within
`[0,1]`. -/
theorem claim_C7_counterexample :
    msaATG.colEntropy 0 = some (Real.log 3 / Real.log 2)
      ∧ 1 < Real.log 3 / Real.log 2 := by
  constructor
  · have h1 : msaATG.lfreqRaw 0 = [1, 1, 1] := by decide
    have h2 : msaATG.nseq = 3 := rfl
    have hK : msaATG.alphabet.length = 3 := by decide
    simp only [Msa.colEntropy]
    rw [hK]
    rw [if_neg (by norm_num), if_neg (by norm_num), Option.some.injEq]
    rw [h1, h2]
    have hr : List.range 3 = [0, 1, 2] := rfl
    rw [hr]
    simp only [List.foldl_cons, List.foldl_nil]
    norm_num [List.getD]
    rw [one_div, Real.log_inv]
    ring
  · rw [lt_div_iff₀ (Real.log_pos one_lt_two), one_mul]
    exact Real.log_lt_log (by norm_num) (by norm_num)

/-- Claim C7 (amended): every computed column entropy that is a real value
at all is nonnegative — with a two-symbol alphabet the program divides by
`log(1) = 0.0` and produces no real value — and a column in which every
symbol of a full alphabet of at least three symbols occurs with equal
frequency has computed entropy `log |alphabet| / log(|alphabet|-1)` (which
is `1.0` only when the normalizer matches, not in general). -/
theorem claim_C7_amended (m : Msa) (hwf : m.wf) {x : Nat} (hx : x < m.ncol) :
    (∀ r : ℝ, m.colEntropy x = some r → 0 ≤ r)
      ∧ (3 ≤ m.alphabet.length →
          (∀ a < m.alphabet.length,
            (m.column x).count (m.alphabet.getD a '?') * m.alphabet.length = m.nseq) →
          m.colEntropy x
            = some (Real.log (m.alphabet.length : ℝ)
                / Real.log ((m.alphabet.length : ℝ) - 1))) := by
  have hn : 0 < m.nseq := hwf.1
  have hK1 : 1 ≤ m.alphabet.length := by
    have hc : m.getSymbol 0 x ∈ m.alphabet :=
      Msa.mem_alphabet_of_mem_cells (Msa.getSymbol_mem_cells hn hx)
    exact List.length_pos.mpr (fun he => by simp [he] at hc)
  have hfle : ∀ i < m.alphabet.length,
      (((m.lfreqRaw x).getD i 0 : ℕ) : ℝ) / (m.nseq : ℝ) ≤ 1 := by
    intro i hi
    rw [m.lfreqRaw_getD hx hi]
    rw [div_le_one (by exact_mod_cast hn)]
    exact_mod_cast column_count_le x (m.alphabet.getD i '?')
  constructor
  · intro r hr
    by_cases hK2 : m.alphabet.length = 2
    · simp only [Msa.colEntropy] at hr
      rw [if_pos hK2] at hr
      exact absurd hr (fun h => Option.noConfusion h)
    · by_cases hKe : m.alphabet.length = 1
      · simp only [Msa.colEntropy] at hr
        rw [if_neg hK2, if_pos hKe] at hr
        injection hr with h
        rw [← h]
      · have hK3 : 3 ≤ m.alphabet.length := by omega
        simp only [Msa.colEntropy] at hr
        rw [if_neg hK2, if_neg hKe] at hr
        injection hr with h
        rw [← h]
        apply div_nonneg
        · apply foldl_mono_step
          intro i hi acc
          try simp only []
          by_cases hpos : (0 : ℝ) < (((m.lfreqRaw x).getD i 0 : ℕ) : ℝ) / (m.nseq : ℝ)
          · rw [if_pos hpos]
            by_cases hone : (((m.lfreqRaw x).getD i 0 : ℕ) : ℝ) / (m.nseq : ℝ) = 1
            · rw [if_pos hone]
            · rw [if_neg hone]
              have hle1 := hfle i (List.mem_range.mp hi)
              have hlog : Real.log ((((m.lfreqRaw x).getD i 0 : ℕ) : ℝ) / (m.nseq : ℝ)) ≤ 0 :=
                Real.log_nonpos (le_of_lt hpos) hle1
              nlinarith
          · rw [if_neg hpos]
        · apply Real.log_nonneg
          have : (3 : ℝ) ≤ (m.alphabet.length : ℝ) := by exact_mod_cast hK3
          linarith
  · intro hK3 huni
    have hK2 : m.alphabet.length ≠ 2 := by omega
    have hKe : m.alphabet.length ≠ 1 := by omega
    simp only [Msa.colEntropy]
    rw [if_neg hK2, if_neg hKe, Option.some.injEq]
    have hstep : ∀ i ∈ List.range m.alphabet.length, ∀ acc : ℝ,
        (fun acc i =>
          let f : ℝ := (((m.lfreqRaw x).getD i 0 : ℕ) : ℝ) / (m.nseq : ℝ)
          if 0 < f then (if f = 1 then acc else acc - f * Real.log f) else acc) acc i
          = acc + Real.log (m.alphabet.length : ℝ) / (m.alphabet.length : ℝ) := by
      intro i hi acc
      have hiK : i < m.alphabet.length := List.mem_range.mp hi
      have hcpos : 0 < (m.column x).count (m.alphabet.getD i '?') := by
        by_contra hcz
        have hcz0 : (m.column x).count (m.alphabet.getD i '?') = 0 := by omega
        have := huni i hiK
        rw [hcz0] at this
        omega
      have hf : (((m.lfreqRaw x).getD i 0 : ℕ) : ℝ) / (m.nseq : ℝ)
          = 1 / (m.alphabet.length : ℝ) := by
        rw [m.lfreqRaw_getD hx hiK]
        have hns : (m.nseq : ℝ)
            = ((m.column x).count (m.alphabet.getD i '?') : ℝ) * (m.alphabet.length : ℝ) := by
          exact_mod_cast (huni i hiK).symm
        have hcr : (0 : ℝ) < ((m.column x).count (m.alphabet.getD i '?') : ℝ) := by
          exact_mod_cast hcpos
        rw [hns, div_mul_eq_div_div, div_self (ne_of_gt hcr)]
      simp only [hf]
      have hKpos : (0 : ℝ) < (m.alphabet.length : ℝ) := by positivity
      rw [if_pos (by positivity)]
      have hne1 : 1 / (m.alphabet.length : ℝ) ≠ 1 := by
        intro h
        have h2 : (m.alphabet.length : ℝ) = 1 := by
          field_simp at h
          linarith
        have : (3 : ℝ) ≤ (m.alphabet.length : ℝ) := by exact_mod_cast hK3
        linarith
      rw [if_neg hne1]
      rw [one_div, Real.log_inv]
      ring
    rw [foldl_congr_fun _ _ _ _ hstep]
    rw [foldl_range_add (fun _ => Real.log (m.alphabet.length : ℝ) / (m.alphabet.length : ℝ))]
    rw [Finset.sum_const, Finset.card_range, zero_add, nsmul_eq_mul]
    congr 1
    field_simp

/-- Instantiation of amended claim C7 at the concrete uniform one-column
alignment over alphabet `ATG`. -/
theorem claim_C7_witness :
    (msaATG.wf ∧ 0 < msaATG.ncol ∧ 3 ≤ msaATG.alphabet.length
        ∧ (∀ a < msaATG.alphabet.length,
            (msaATG.column 0).count (msaATG.alphabet.getD a '?') * msaATG.alphabet.length
              = msaATG.nseq))
      ∧ (msaATG.colEntropy 0
            = some (Real.log (msaATG.alphabet.length : ℝ)
                / Real.log ((msaATG.alphabet.length : ℝ) - 1))
        ∧ 0 ≤ Real.log (msaATG.alphabet.length : ℝ)
            / Real.log ((msaATG.alphabet.length : ℝ) - 1)) :=
  by
    have hmain := @claim_C7_amended msaATG ⟨by decide, by decide⟩ 0 (by decide)
    exact ⟨⟨⟨by decide, by decide⟩, by decide, by decide, by decide⟩,
      hmain.2 (by decide) (by decide),
      hmain.1 _ (hmain.2 (by decide) (by decide))⟩

/-! Facts about the Henikoff-Henikoff weights feeding claims C1 and C5. -/

theorem nShared_pos (m : Msa) {i : Nat} (hi : i < m.nseq) (x : Nat) : 0 < nShared m x i := by
  unfold nShared
  apply List.length_pos.mpr
  intro he
  have hmem : i ∈ (List.range m.nseq).filter
      (fun seq => m.getSymbol i x == m.getSymbol seq x) := by
    rw [List.mem_filter]
    exact ⟨List.mem_range.mpr hi, beq_self_eq_true (m.getSymbol i x)⟩
  rw [he] at hmem
  simp at hmem

theorem nShared_le (m : Msa) (x i : Nat) : nShared m x i ≤ m.nseq := by
  unfold nShared
  calc ((List.range m.nseq).filter (fun seq => m.getSymbol i x == m.getSymbol seq x)).length
      ≤ (List.range m.nseq).length := List.length_filter_le _ _
    _ = m.nseq := List.length_range m.nseq

theorem nShared_eq_fiber_card (m : Msa) (x i : Nat) :
    nShared m x i = ((Finset.range m.nseq).filter
      (fun seq => m.getSymbol seq x = m.getSymbol i x)).card := by
  unfold nShared
  rw [length_filter_range (fun seq => m.getSymbol i x == m.getSymbol seq x)]
  congr 1
  apply Finset.filter_congr
  intro s _
  constructor
  · intro h
    exact (beq_iff_eq.mp h).symm
  · intro h
    exact beq_iff_eq.mpr h.symm

theorem sum_inv_nShared (m : Msa) (hn : 0 < m.nseq) (x : Nat) :
    ∑ i in Finset.range m.nseq, (1 : ℚ) / (nShared m x i : ℚ) = (m.nbType x : ℚ) := by
  have hmap : ∀ i ∈ Finset.range m.nseq, m.getSymbol i x ∈ (m.typeList x).toFinset := by
    intro i hi
    exact List.mem_toFinset.mpr
      (Msa.mem_typeList_iff.mpr (Msa.getSymbol_mem_column (Finset.mem_range.mp hi) x))
  rw [← Finset.sum_fiberwise_of_maps_to hmap (fun i => (1 : ℚ) / (nShared m x i : ℚ))]
  have hfib : ∀ c ∈ (m.typeList x).toFinset,
      (∑ i in (Finset.range m.nseq).filter (fun i => m.getSymbol i x = c),
        (1 : ℚ) / (nShared m x i : ℚ)) = 1 := by
    intro c hc
    have hcard : ∀ i ∈ (Finset.range m.nseq).filter (fun i => m.getSymbol i x = c),
        nShared m x i
          = ((Finset.range m.nseq).filter (fun i => m.getSymbol i x = c)).card := by
      intro i hi
      rcases Finset.mem_filter.mp hi with ⟨hir, hieq⟩
      rw [nShared_eq_fiber_card]
      congr 1
      apply Finset.filter_congr
      intro s _
      rw [hieq]
    have hne : ((Finset.range m.nseq).filter (fun i => m.getSymbol i x = c)).Nonempty := by
      have hcc : c ∈ m.column x := Msa.mem_typeList_iff.mp (List.mem_toFinset.mp hc)
      rcases List.mem_map.mp hcc with ⟨row, hrow, hreq⟩
      exact ⟨row, Finset.mem_filter.mpr ⟨Finset.mem_range.mpr (List.mem_range.mp hrow), hreq⟩⟩
    rw [Finset.sum_congr rfl (fun i hi => by rw [hcard i hi])]
    rw [Finset.sum_const, nsmul_eq_mul, mul_one_div]
    apply div_self
    have := Finset.card_pos.mpr hne
    exact_mod_cast ne_of_gt this
  rw [Finset.sum_congr rfl hfib, Finset.sum_const, nsmul_eq_mul, mul_one]
  rw [List.toFinset_card_of_nodup (m.typeList_nodup x)]
  rfl

theorem wentCalc_expand (m : Msa) (j : Nat) :
    WEntStat.calcSeqWeight m j
      = (∑ x in Finset.range m.ncol, 1 / ((nShared m x j : ℚ) * (m.nbType x : ℚ)))
          / (m.ncol : ℚ) := by
  unfold WEntStat.calcSeqWeight
  rw [foldl_range_add (fun x => 1 / ((nShared m x j : ℚ) * (m.nbType x : ℚ))), zero_add]

theorem sum_wentCalc (m : Msa) (hn : 0 < m.nseq) (hcol : 0 < m.ncol) :
    ∑ j in Finset.range m.nseq, WEntStat.calcSeqWeight m j = 1 := by
  rw [Finset.sum_congr rfl (fun j _ => wentCalc_expand m j), ← Finset.sum_div,
    Finset.sum_comm]
  have hinner : ∀ x ∈ Finset.range m.ncol,
      (∑ j in Finset.range m.nseq, 1 / ((nShared m x j : ℚ) * (m.nbType x : ℚ))) = 1 := by
    intro x _
    have hfact : ∀ j ∈ Finset.range m.nseq,
        1 / ((nShared m x j : ℚ) * (m.nbType x : ℚ))
          = (1 / (nShared m x j : ℚ)) * (1 / (m.nbType x : ℚ)) := by
      intro j _
      rw [div_mul_div_comm, one_mul]
    rw [Finset.sum_congr rfl hfact, ← Finset.sum_mul, sum_inv_nShared m hn x, mul_one_div]
    apply div_self
    exact_mod_cast ne_of_gt (m.nbType_pos hn x)
  rw [Finset.sum_congr rfl hinner, Finset.sum_const, Finset.card_range, nsmul_eq_mul, mul_one]
  apply div_self
  exact_mod_cast ne_of_gt hcol

theorem wentCalc_ge (m : Msa) (hn : 0 < m.nseq) (hcol : 0 < m.ncol) {j : Nat}
    (hj : j < m.nseq) :
    1 / ((m.nseq : ℚ) * (m.nseq : ℚ)) ≤ WEntStat.calcSeqWeight m j := by
  rw [wentCalc_expand m j, le_div_iff₀ (by exact_mod_cast hcol)]
  have hterm : ∀ x ∈ Finset.range m.ncol,
      1 / ((m.nseq : ℚ) * (m.nseq : ℚ)) ≤ 1 / ((nShared m x j : ℚ) * (m.nbType x : ℚ)) := by
    intro x _
    apply one_div_le_one_div_of_le
    · have h1 : 0 < nShared m x j := nShared_pos m hj x
      have h2 : 0 < m.nbType x := m.nbType_pos hn x
      have h1q : (0 : ℚ) < (nShared m x j : ℚ) := by exact_mod_cast h1
      have h2q : (0 : ℚ) < (m.nbType x : ℚ) := by exact_mod_cast h2
      positivity
    · apply mul_le_mul
      · exact_mod_cast nShared_le m x j
      · exact_mod_cast m.nbType_le_nseq x
      · positivity
      · positivity
  calc 1 / ((m.nseq : ℚ) * (m.nseq : ℚ)) * (m.ncol : ℚ)
      = (m.ncol : ℚ) * (1 / ((m.nseq : ℚ) * (m.nseq : ℚ))) := by ring
    _ = (Finset.range m.ncol).card • (1 / ((m.nseq : ℚ) * (m.nseq : ℚ))) := by
        rw [Finset.card_range, nsmul_eq_mul]
    _ ≤ ∑ x in Finset.range m.ncol, 1 / ((nShared m x j : ℚ) * (m.nbType x : ℚ)) :=
        Finset.card_nsmul_le_sum _ _ _ hterm

theorem wentCalc_pos (m : Msa) (hn : 0 < m.nseq) (hcol : 0 < m.ncol) {j : Nat}
    (hj : j < m.nseq) : 0 < WEntStat.calcSeqWeight m j := by
  have h := wentCalc_ge m hn hcol hj
  have h2 : (0 : ℚ) < 1 / ((m.nseq : ℚ) * (m.nseq : ℚ)) := by
    have : (0 : ℚ) < (m.nseq : ℚ) := by exact_mod_cast hn
    positivity
  linarith

theorem probaRaw_eq_sum (m : Msa) (x a : Nat) :
    JensenStat.probaRaw m x a
      = ∑ j in (Finset.range m.nseq).filter
          (fun j => m.getSymbol j x = m.alphabet.getD a '?'),
          WEntStat.calcSeqWeight m j := by
  unfold JensenStat.probaRaw
  have hcong : ∀ j ∈ List.range m.nseq, ∀ acc : ℚ,
      (if m.getSymbol j x == m.alphabet.getD a '?'
        then acc + JensenStat.calcSeqWeight m j else acc)
      = (if m.getSymbol j x = m.alphabet.getD a '?'
        then acc + WEntStat.calcSeqWeight m j else acc) := by
    intro j _ acc
    by_cases h : m.getSymbol j x = m.alphabet.getD a '?'
    · rw [if_pos (beq_iff_eq.mpr h), if_pos h, jensenCalc_eq_wentCalc]
    · rw [if_neg (fun hb => h (beq_iff_eq.mp hb)), if_neg h]
  rw [foldl_congr_fun _ _ _ _ hcong]
  rw [foldl_range_ite_add (fun j => m.getSymbol j x = m.alphabet.getD a '?')
    (fun j => WEntStat.calcSeqWeight m j), zero_add, Finset.sum_filter]

theorem sum_probaRaw (m : Msa) {x : Nat} (hx : x < m.ncol) :
    ∑ a in Finset.range m.alphabet.length, JensenStat.probaRaw m x a
      = ∑ j in Finset.range m.nseq, WEntStat.calcSeqWeight m j := by
  have hmap : ∀ j ∈ Finset.range m.nseq,
      m.alphabet.findIdx (fun ch => ch == m.getSymbol j x) ∈ Finset.range m.alphabet.length := by
    intro j hj
    apply Finset.mem_range.mpr
    apply findIdx_beq_lt_of_mem
    exact Msa.mem_alphabet_of_mem_cells (Msa.getSymbol_mem_cells (Finset.mem_range.mp hj) hx)
  rw [← Finset.sum_fiberwise_of_maps_to hmap (fun j => WEntStat.calcSeqWeight m j)]
  apply Finset.sum_congr rfl
  intro a ha
  rw [probaRaw_eq_sum]
  congr 1
  apply Finset.filter_congr
  intro j hj
  have hmem : m.getSymbol j x ∈ m.alphabet :=
    Msa.mem_alphabet_of_mem_cells (Msa.getSymbol_mem_cells (Finset.mem_range.mp hj) hx)
  constructor
  · intro h
    rw [h]
    exact findIdx_beq_getD_of_nodup m.alphabet_nodup '?' a (Finset.mem_range.mp ha)
  · intro h
    rw [← h]
    exact (getD_findIdx_beq hmem '?').symm

theorem probaRaw_gt_eps (m : Msa) (hn : 0 < m.nseq) (hcol : 0 < m.ncol)
    (hcap : m.nseq ≤ 500) (x a : Nat)
    (hne : JensenStat.probaRaw m x a ≠ 0) : JensenStat.eps < JensenStat.probaRaw m x a := by
  rw [probaRaw_eq_sum] at hne ⊢
  have hnonneg : ∀ j ∈ (Finset.range m.nseq).filter
      (fun j => m.getSymbol j x = m.alphabet.getD a '?'), (0 : ℚ) ≤ WEntStat.calcSeqWeight m j := by
    intro j hj
    have hj2 : j < m.nseq := Finset.mem_range.mp (Finset.mem_filter.mp hj).1
    exact le_of_lt (wentCalc_pos m hn hcol hj2)
  have hsne : ((Finset.range m.nseq).filter
      (fun j => m.getSymbol j x = m.alphabet.getD a '?')).Nonempty := by
    by_contra hempty
    rw [Finset.not_nonempty_iff_eq_empty] at hempty
    rw [hempty, Finset.sum_empty] at hne
    exact hne rfl
  rcases hsne with ⟨j0, hj0⟩
  have hj0n : j0 < m.nseq := Finset.mem_range.mp (Finset.mem_filter.mp hj0).1
  have hw := wentCalc_ge m hn hcol hj0n
  have hsum : WEntStat.calcSeqWeight m j0
      ≤ ∑ j in (Finset.range m.nseq).filter
          (fun j => m.getSymbol j x = m.alphabet.getD a '?'), WEntStat.calcSeqWeight m j :=
    Finset.single_le_sum hnonneg hj0
  have heps : JensenStat.eps < 1 / ((m.nseq : ℚ) * (m.nseq : ℚ)) := by
    unfold JensenStat.eps
    have hcast : (m.nseq : ℚ) ≤ 500 := by exact_mod_cast hcap
    have hn0 : (0 : ℚ) < (m.nseq : ℚ) := by exact_mod_cast hn
    have h1 : (m.nseq : ℚ) * (m.nseq : ℚ) ≤ 250000 := by nlinarith
    have h2 : (0 : ℚ) < (m.nseq : ℚ) * (m.nseq : ℚ) := by positivity
    calc (1 : ℚ) / 1000000 < 1 / 250000 := by norm_num
      _ ≤ 1 / ((m.nseq : ℚ) * (m.nseq : ℚ)) := one_div_le_one_div_of_le h2 h1
  linarith

theorem nbAbs_card (m : Msa) (x : Nat) :
    JensenStat.nbAbs m x
      = ((Finset.range m.alphabet.length).filter
          (fun a => JensenStat.probaRaw m x a = 0)).card := by
  unfold JensenStat.nbAbs
  rw [length_filter_range (fun a => JensenStat.probaRaw m x a == 0)]
  congr 1
  apply Finset.filter_congr
  intro a _
  constructor
  · exact fun h => beq_iff_eq.mp h
  · exact fun h => beq_iff_eq.mpr h

theorem nbAbs_lt (m : Msa) (hn : 0 < m.nseq) (hcol : 0 < m.ncol) {x : Nat} (hx : x < m.ncol) :
    JensenStat.nbAbs m x < m.alphabet.length := by
  have hmem : m.getSymbol 0 x ∈ m.alphabet :=
    Msa.mem_alphabet_of_mem_cells (Msa.getSymbol_mem_cells hn hx)
  have ha0 : m.alphabet.findIdx (fun ch => ch == m.getSymbol 0 x) < m.alphabet.length :=
    findIdx_beq_lt_of_mem hmem
  have hne : JensenStat.probaRaw m x (m.alphabet.findIdx (fun ch => ch == m.getSymbol 0 x))
      ≠ 0 := by
    rw [probaRaw_eq_sum]
    have h0mem : (0 : Nat) ∈ (Finset.range m.nseq).filter
        (fun j => m.getSymbol j x
          = m.alphabet.getD (m.alphabet.findIdx (fun ch => ch == m.getSymbol 0 x)) '?') := by
      apply Finset.mem_filter.mpr
      exact ⟨Finset.mem_range.mpr hn, (getD_findIdx_beq hmem '?').symm⟩
    have hnonneg : ∀ j ∈ (Finset.range m.nseq).filter
        (fun j => m.getSymbol j x
          = m.alphabet.getD (m.alphabet.findIdx (fun ch => ch == m.getSymbol 0 x)) '?'),
        (0 : ℚ) ≤ WEntStat.calcSeqWeight m j := by
      intro j hj
      have hj2 : j < m.nseq := Finset.mem_range.mp (Finset.mem_filter.mp hj).1
      exact le_of_lt (wentCalc_pos m hn hcol hj2)
    have hpos := wentCalc_pos m hn hcol hn
    have hsum := Finset.single_le_sum hnonneg h0mem
    intro hcontra
    rw [hcontra] at hsum
    linarith
  rw [nbAbs_card]
  conv_rhs => rw [← Finset.card_range m.alphabet.length]
  apply Finset.card_lt_card
  rw [Finset.ssubset_iff_of_subset (Finset.filter_subset _ _)]
  refine ⟨m.alphabet.findIdx (fun ch => ch == m.getSymbol 0 x), Finset.mem_range.mpr ha0, ?_⟩
  intro habs
  exact hne (Finset.mem_filter.mp habs).2

/-- Claim C5: after the pseudo-count adjustment in
`JensenStat::calculateStatistic` (zero entries replaced by `1e-6`, entries
above `1e-6` reduced by `nb_abs*1e-6/(|alphabet|-nb_abs)`), the probability
entries of a processed column sum to exactly 1. -/
theorem claim_C5 (m : Msa) (hwf : m.wf) (hcap : m.nseq ≤ 500) {x : Nat} (hx : x < m.ncol) :
    (JensenStat.probaCol m x).sum = 1 := by
  have hn : 0 < m.nseq := hwf.1
  have hcol : 0 < m.ncol := by omega
  have hKgt := nbAbs_lt m hn hcol hx
  unfold JensenStat.probaCol
  rw [List.map_map, sum_map_range]
  have hpoint : ∀ a ∈ Finset.range m.alphabet.length,
      ((fun p => if JensenStat.eps < p then p
          - (JensenStat.nbAbs m x : ℚ) * JensenStat.eps
              / ((m.alphabet.length - JensenStat.nbAbs m x : ℕ) : ℚ) else p) ∘
        (fun a => if JensenStat.probaRaw m x a = 0 then JensenStat.eps
          else JensenStat.probaRaw m x a)) a
      = (if JensenStat.probaRaw m x a = 0 then JensenStat.eps
          else JensenStat.probaRaw m x a
            - (JensenStat.nbAbs m x : ℚ) * JensenStat.eps
                / ((m.alphabet.length - JensenStat.nbAbs m x : ℕ) : ℚ)) := by
    intro a _
    simp only [Function.comp_apply]
    by_cases h0 : JensenStat.probaRaw m x a = 0
    · rw [if_pos h0, if_pos h0, if_neg (lt_irrefl _)]
    · rw [if_neg h0, if_neg h0, if_pos (probaRaw_gt_eps m hn hcol hcap x a h0)]
  rw [Finset.sum_congr rfl hpoint, Finset.sum_ite, Finset.sum_const, Finset.sum_sub_distrib,
    Finset.sum_const]
  have hS1 : ∑ a in (Finset.range m.alphabet.length).filter
      (fun a => ¬JensenStat.probaRaw m x a = 0), JensenStat.probaRaw m x a
      = ∑ a in Finset.range m.alphabet.length, JensenStat.probaRaw m x a := by
    apply Finset.sum_filter_ne_zero
  rw [hS1, sum_probaRaw m hx, sum_wentCalc m hn hcol]
  have hcards : ((Finset.range m.alphabet.length).filter
      (fun a => JensenStat.probaRaw m x a = 0)).card = JensenStat.nbAbs m x :=
    (nbAbs_card m x).symm
  have hcards2 : ((Finset.range m.alphabet.length).filter
      (fun a => ¬JensenStat.probaRaw m x a = 0)).card
      = m.alphabet.length - JensenStat.nbAbs m x := by
    have htot := Finset.filter_card_add_filter_neg_card_eq_card
      (s := Finset.range m.alphabet.length) (p := fun a => JensenStat.probaRaw m x a = 0)
    rw [Finset.card_range] at htot
    rw [nbAbs_card m x]
    omega
  rw [hcards, hcards2]
  have hdiffpos : 0 < m.alphabet.length - JensenStat.nbAbs m x := by omega
  have hdiffq : ((m.alphabet.length - JensenStat.nbAbs m x : ℕ) : ℚ) ≠ 0 := by
    exact_mod_cast ne_of_gt hdiffpos
  rw [nsmul_eq_mul, nsmul_eq_mul,
    mul_comm (((m.alphabet.length - JensenStat.nbAbs m x : ℕ) : ℚ)),
    div_mul_cancel₀ _ hdiffq]
  ring

/-- Instantiation of claim C5 at a concrete alignment and column. -/
theorem claim_C5_witness :
    (msaW.wf ∧ msaW.nseq ≤ 500 ∧ 0 < msaW.ncol)
      ∧ (JensenStat.probaCol msaW 0).sum = 1 :=
  ⟨⟨⟨by decide, by decide⟩, by decide, by decide⟩,
    claim_C5 msaW ⟨by decide, by decide⟩ (by decide) (by decide)⟩

theorem proba_eq_specPa (m : Msa) (x a : Nat) :
    WEntStat.proba m x a = specPa m x (m.alphabet.getD a '?') := by
  unfold WEntStat.proba specPa
  have hcong : ∀ j ∈ List.range m.nseq, ∀ acc : ℝ,
      (if m.getSymbol j x == m.alphabet.getD a '?'
        then acc + ((WEntStat.calcSeqWeight m j : ℚ) : ℝ) else acc)
      = (if m.getSymbol j x = m.alphabet.getD a '?'
        then acc + ((WEntStat.calcSeqWeight m j : ℚ) : ℝ) else acc) := by
    intro j _ acc
    by_cases h : m.getSymbol j x = m.alphabet.getD a '?'
    · rw [if_pos (beq_iff_eq.mpr h), if_pos h]
    · rw [if_neg (fun hb => h (beq_iff_eq.mp hb)), if_neg h]
  rw [foldl_congr_fun _ _ _ _ hcong]
  rw [foldl_range_ite_add (fun j => m.getSymbol j x = m.alphabet.getD a '?')
    (fun j => ((WEntStat.calcSeqWeight m j : ℚ) : ℝ)), zero_add, Finset.sum_filter]

theorem colCons_eq_specH (m : Msa) (x : Nat) : WEntStat.colCons m x = specH m x := by
  unfold WEntStat.colCons specH
  have hcong : ∀ a ∈ List.range m.alphabet.length, ∀ acc : ℝ,
      (if WEntStat.proba m x a ≠ 0
        then acc - WEntStat.proba m x a * Real.log (WEntStat.proba m x a) else acc)
      = (if WEntStat.proba m x a ≠ 0
        then acc + (-(WEntStat.proba m x a * Real.log (WEntStat.proba m x a))) else acc) := by
    intro a _ acc
    rw [sub_eq_add_neg]
  rw [foldl_congr_fun _ _ _ _ hcong]
  rw [foldl_range_ite_add (fun a => WEntStat.proba m x a ≠ 0)
    (fun a => -(WEntStat.proba m x a * Real.log (WEntStat.proba m x a))), zero_add]
  have hpt : ∀ a ∈ Finset.range m.alphabet.length,
      (if WEntStat.proba m x a ≠ 0
        then -(WEntStat.proba m x a * Real.log (WEntStat.proba m x a)) else 0)
      = (fun c => if specPa m x c ≠ 0
          then -(specPa m x c * Real.log (specPa m x c)) else 0) (m.alphabet.getD a '?') := by
    intro a _
    rw [proba_eq_specPa]
  have hre := sum_range_getD
    (fun c => if specPa m x c ≠ 0 then -(specPa m x c * Real.log (specPa m x c)) else 0)
    '?' m.alphabet m.alphabet_nodup
  rw [Finset.sum_congr rfl hpt, hre]
  rw [← Finset.sum_filter]
  rw [Finset.sum_neg_distrib]
  ring

/-- Claim C1: `WEntStat::calculateStatistic` emits exactly `ncol` values in
column order, the value for column `x` being
`(1 - H(x)) * (1 - gapCount(x)/nseq)` with
`H(x) = -lambda * Σ_{p_a ≠ 0} p_a log p_a`, `p_a` the summed weights of the
rows showing symbol `a` at column `x`, and
`lambda = 1/log(min(|alphabet|, nseq))`. -/
theorem claim_C1 (m : Msa) (hwf : m.wf) (hcol : 1 ≤ m.ncol)
    (hmin : 2 ≤ min m.alphabet.length m.nseq) :
    (WEntStat.output m).length = m.ncol
      ∧ ∀ x < m.ncol, (WEntStat.output m).getD x 0
          = (1 - specH m x) * (1 - (m.gapCount x : ℝ) / (m.nseq : ℝ)) := by
  constructor
  · unfold WEntStat.output
    simp
  · intro x hx
    unfold WEntStat.output
    rw [getD_map_of_lt _ (List.range m.ncol) (by simpa using hx) 0]
    have hgetd : (List.range m.ncol).getD x 0 = x := by
      rw [List.getD_eq_getElem _ _ (by simpa using hx)]
      simp
    rw [hgetd, colCons_eq_specH]

/-- Instantiation of claim C1 at a concrete alignment, reading column 0. -/
theorem claim_C1_witness :
    (msaW.wf ∧ 1 ≤ msaW.ncol ∧ 2 ≤ min msaW.alphabet.length msaW.nseq)
      ∧ ((WEntStat.output msaW).length = msaW.ncol
        ∧ (WEntStat.output msaW).getD 0 0
            = (1 - specH msaW 0) * (1 - (msaW.gapCount 0 : ℝ) / (msaW.nseq : ℝ))) :=
  ⟨⟨⟨by decide, by decide⟩, by decide, by decide⟩,
    ⟨(claim_C1 msaW ⟨by decide, by decide⟩ (by decide) (by decide)).1,
      (claim_C1 msaW ⟨by decide, by decide⟩ (by decide) (by decide)).2 0 (by decide)⟩⟩

end MstatX
